import Mathlib

/-
Shallow embedding of `pr_agent/git_providers/git_provider.py`.

Python strings are modelled as lists of characters (`PyStr`); the Python
string operations used by the source (`strip`, `startswith`, `in`,
`split(sep, 1)`, `rsplit('.')`, `lower`) are embedded as executable
functions over `PyStr` with Python's semantics.  Absent values (`None`)
are modelled with `Option`, and the `try/except` block of
`get_main_pr_language` is modelled by an `Option`-valued core computation
whose `none` outcome the wrapper converts to the empty string.
-/

abbrev PyStr := List Char

def pyOfString (s : String) : PyStr := s.data

/-- Whitespace characters removed by Python `str.strip()` (the ASCII ones:
space, tab, newline, carriage return, vertical tab, form feed). -/
def isPySpace (c : Char) : Bool :=
  c == ' ' || c == '\t' || c == '\n' || c == '\r' ||
    c == Char.ofNat 11 || c == Char.ofNat 12

/-- Python `s.strip()`: remove leading and trailing whitespace. -/
def pyStrip (s : PyStr) : PyStr :=
  ((s.dropWhile isPySpace).reverse.dropWhile isPySpace).reverse

/-- Python `s.startswith(p)`: `pyStartsWith p s` is `true` iff `p` is a
prefix of `s`. -/
def pyStartsWith : PyStr → PyStr → Bool
  | [], _ => true
  | _ :: _, [] => false
  | p :: ps, c :: cs => p == c && pyStartsWith ps cs

/-- Python `s.split(sep, 1)` for non-empty `sep`: `some (pre, post)` where
`pre` is the text before the first occurrence of `sep` and `post` the text
after it, or `none` when `sep` does not occur in `s`. -/
def splitFirst (sep : PyStr) : PyStr → Option (PyStr × PyStr)
  | [] => if sep.isEmpty then some ([], []) else none
  | c :: cs =>
    if pyStartsWith sep (c :: cs) then some ([], (c :: cs).drop sep.length)
    else
      match splitFirst sep cs with
      | some (pre, post) => some (c :: pre, post)
      | none => none

/-- Python `sep in s` (substring containment, for non-empty `sep`). -/
def pyContains (sep s : PyStr) : Bool := (splitFirst sep s).isSome

/-- The literal marker `"## PR Type"` from `get_user_description`. -/
def prTypeMarker : PyStr := pyOfString "## PR Type"

/-- The literal marker `"## User Description:"` from `get_user_description`. -/
def userDescriptionMarker : PyStr := pyOfString "## User Description:"

/-- `GitProvider.get_user_description`.  The provider's raw full description
(the result of the abstract `get_pr_description_full()`) is passed in as an
`Option PyStr`; the source coerces a falsy result to `""` via
`(self.get_pr_description_full() or "")` before stripping. -/
def get_user_description (full_description : Option PyStr) : PyStr :=
  let description := pyStrip (full_description.getD [])
  if !(pyStartsWith prTypeMarker description) then description
  else if !(pyContains userDescriptionMarker description) then []
  else
    match splitFirst userDescriptionMarker description with
    | some (_, post) => pyStrip post
    | none => []

/-- Python truthiness of the `CONFIG.MAX_DESCRIPTION_TOKENS` setting as used
in `if max_tokens:` — `None` and `0` are falsy, every other integer truthy. -/
def pyTruthyOptInt : Option Int → Bool
  | none => false
  | some n => n != 0

/-- `GitProvider.get_pr_description`.  The abstract collaborators are passed
in explicitly: `max_tokens` is the configured `CONFIG.MAX_DESCRIPTION_TOKENS`
setting (absent when unset), `clip_tokens` the external clipping function,
`full_description` the raw result of `get_pr_description_full()`. -/
def get_pr_description (full : Bool) (max_tokens : Option Int)
    (clip_tokens : PyStr → Int → PyStr) (full_description : Option PyStr) :
    Option PyStr :=
  let description : Option PyStr :=
    if full then full_description else some (get_user_description full_description)
  if pyTruthyOptInt max_tokens then
    description.map (fun d => clip_tokens d (max_tokens.getD 0))
  else description

/-- The `EDIT_TYPE` enumeration. -/
inductive EDIT_TYPE where
  | ADDED
  | DELETED
  | MODIFIED
  | RENAMED
deriving DecidableEq, Repr

/-- The `FilePatchInfo` dataclass.  Fields that the source populates with
`None` are `Option`-typed. -/
structure FilePatchInfo where
  base_file : Option PyStr
  head_file : Option PyStr
  patch : Option PyStr
  filename : PyStr
  tokens : Int := -1
  edit_type : EDIT_TYPE := EDIT_TYPE.MODIFIED
  old_filename : Option PyStr := none
deriving DecidableEq, Repr

/-- An entry of the `files` argument of `get_main_pr_language`: either a bare
filename string or a `FilePatchInfo`. -/
inductive FileArg where
  | str (s : PyStr)
  | info (f : FilePatchInfo)
deriving DecidableEq, Repr

/-- The loop body `if isinstance(file, str): file = FilePatchInfo(...)`; a
bare string becomes a `FilePatchInfo` with only `filename` set. -/
def fileArgInfo : FileArg → FilePatchInfo
  | FileArg.str s =>
    { base_file := none, head_file := none, patch := none, filename := s }
  | FileArg.info f => f

/-- Python `s.lower()` (ASCII case folding, which covers the language names
compared by the source). -/
def pyLower (s : PyStr) : PyStr := s.map Char.toLower

/-- Python `s.split(c)` / `s.rsplit(c)` with a single-character separator and
no maxsplit: split on every occurrence of `c`.  The result is never empty;
a string without `c` yields the one-element list `[s]`. -/
def pySplitChar (c : Char) : PyStr → List PyStr
  | [] => [[]]
  | x :: xs =>
    let r := pySplitChar c xs
    if x == c then [] :: r
    else
      match r with
      | [] => [[x]]
      | y :: ys => (x :: y) :: ys

/-- `file.filename.rsplit('.')[-1]`: the last segment of the filename split
on every dot.  The `[-1]` indexing is modelled by `getLast?` (it would fail
on an empty list, feeding the surrounding `try/except`). -/
def fileExtension? (f : FileArg) : Option PyStr :=
  (pySplitChar '.' (fileArgInfo f).filename).getLast?

/-- Python `max(xs, key=val)` over a list: the first element with the maximal
key wins (Python replaces the current best only on a strictly greater key);
`none` on an empty list (Python raises `ValueError` there). -/
def firstMaxBy {α : Type} (val : α → Int) : List α → Option α
  | [] => none
  | x :: xs =>
    some (xs.foldl (fun best y => if val best < val y then y else best) x)

/-- `max(languages, key=languages.get).lower()`: the lower-cased key of the
languages mapping carrying the maximal value.  The mapping is modelled as an
association list in iteration order. -/
def topLanguage? (languages : List (PyStr × Int)) : Option PyStr :=
  (firstMaxBy Prod.snd languages).map (fun p => pyLower p.fst)

/-- The distinct elements of a list, first occurrence first: a deterministic
rendering of Python's `set(extension_list)` iteration (whose order is
unspecified; the spec documents the tie-break as arbitrary). -/
def dedupFirst (l : List PyStr) : List PyStr :=
  l.foldl (fun acc x => if x ∈ acc then acc else acc ++ [x]) []

/-- `max(set(extension_list), key=extension_list.count)`: a most frequent
extension; `none` on an empty list (Python raises `ValueError` there). -/
def mostCommonExtension? (extension_list : List PyStr) : Option PyStr :=
  firstMaxBy (fun e => (extension_list.count e : Int)) (dedupFirst extension_list)

/-- The 15-way `or`-chain of the source matching the most common extension
against the top language, ending in the catch-all verbatim comparison. -/
def langMatch (most_common_extension top_language : PyStr) : Bool :=
  most_common_extension == pyOfString "py" && top_language == pyOfString "python" ||
  most_common_extension == pyOfString "js" && top_language == pyOfString "javascript" ||
  most_common_extension == pyOfString "ts" && top_language == pyOfString "typescript" ||
  most_common_extension == pyOfString "go" && top_language == pyOfString "go" ||
  most_common_extension == pyOfString "java" && top_language == pyOfString "java" ||
  most_common_extension == pyOfString "c" && top_language == pyOfString "c" ||
  most_common_extension == pyOfString "cpp" && top_language == pyOfString "c++" ||
  most_common_extension == pyOfString "cs" && top_language == pyOfString "c#" ||
  most_common_extension == pyOfString "swift" && top_language == pyOfString "swift" ||
  most_common_extension == pyOfString "php" && top_language == pyOfString "php" ||
  most_common_extension == pyOfString "rb" && top_language == pyOfString "ruby" ||
  most_common_extension == pyOfString "rs" && top_language == pyOfString "rust" ||
  most_common_extension == pyOfString "scala" && top_language == pyOfString "scala" ||
  most_common_extension == pyOfString "kt" && top_language == pyOfString "kotlin" ||
  most_common_extension == pyOfString "pl" && top_language == pyOfString "perl" ||
  most_common_extension == top_language

/-- The `for file in files` loop of the source, building `extension_list`;
each iteration appends `file.filename.rsplit('.')[-1]`, which is where the
loop could raise. -/
def extensionList? : List FileArg → Option (List PyStr)
  | [] => some []
  | f :: fs => do
    let e ← fileExtension? f
    let rest ← extensionList? fs
    pure (e :: rest)

/-- The body of the `try` block of `get_main_pr_language`: `none` marks the
spots where the Python code would raise (handed to the `except` handler). -/
def mainLanguageTry (languages : List (PyStr × Int)) (files : List FileArg) :
    Option PyStr := do
  let top_language ← topLanguage? languages
  let extension_list ← extensionList? files
  let most_common_extension ← mostCommonExtension? extension_list
  pure (if langMatch most_common_extension top_language then top_language else [])

/-- The fixed extension-to-language table of the match policy, as the spec
lists it. -/
def extensionTable : List (PyStr × PyStr) :=
  [(pyOfString "py", pyOfString "python"),
   (pyOfString "js", pyOfString "javascript"),
   (pyOfString "ts", pyOfString "typescript"),
   (pyOfString "go", pyOfString "go"),
   (pyOfString "java", pyOfString "java"),
   (pyOfString "c", pyOfString "c"),
   (pyOfString "cpp", pyOfString "c++"),
   (pyOfString "cs", pyOfString "c#"),
   (pyOfString "swift", pyOfString "swift"),
   (pyOfString "php", pyOfString "php"),
   (pyOfString "rb", pyOfString "ruby"),
   (pyOfString "rs", pyOfString "rust"),
   (pyOfString "scala", pyOfString "scala"),
   (pyOfString "kt", pyOfString "kotlin"),
   (pyOfString "pl", pyOfString "perl")]

/-- `get_main_pr_language(languages, files)`: empty-input guards, then the
`try` body, with any failure degraded to the empty string by the
`except` handler. -/
def get_main_pr_language (languages : List (PyStr × Int)) (files : List FileArg) :
    PyStr :=
  if languages.isEmpty then []
  else if files.isEmpty then []
  else
    match mainLanguageTry languages files with
    | some s => s
    | none => []

/-- An opaque platform commit handle; the source only reads its `sha`. -/
structure Commit where
  sha : PyStr
deriving DecidableEq, Repr

/-- The `IncrementalPR` state. -/
structure IncrementalPR where
  is_incremental : Bool := false
  commits_range : Option PyStr := none
  first_new_commit : Option Commit := none
  last_seen_commit : Option Commit := none
deriving DecidableEq, Repr

/-- The `first_new_commit_sha` property. -/
def IncrementalPR.first_new_commit_sha (self : IncrementalPR) : Option PyStr :=
  match self.first_new_commit with
  | none => none
  | some c => some c.sha

/-- The `last_seen_commit_sha` property. -/
def IncrementalPR.last_seen_commit_sha (self : IncrementalPR) : Option PyStr :=
  match self.last_seen_commit with
  | none => none
  | some c => some c.sha

/-! ### Properties of the embedded Python string operations -/

lemma pyStrip_eq_rdropWhile (s : PyStr) :
    pyStrip s = List.rdropWhile isPySpace (List.dropWhile isPySpace s) := rfl

lemma dropWhile_rdropWhile_dropWhile (p : Char → Bool) (l : List Char) :
    List.dropWhile p (List.rdropWhile p (List.dropWhile p l)) =
      List.rdropWhile p (List.dropWhile p l) := by
  rcases h : List.rdropWhile p (List.dropWhile p l) with _ | ⟨x, xs⟩
  · simp
  · have hpre : List.rdropWhile p (List.dropWhile p l) <+: List.dropWhile p l :=
      List.rdropWhile_prefix p (List.dropWhile p l)
    rw [h] at hpre
    obtain ⟨t, ht⟩ := hpre
    have hne : List.dropWhile p l ≠ [] := by
      rw [← ht]
      simp
    have hx : List.dropWhile p l = x :: (xs ++ t) := by rw [← ht]; simp
    have hhead := List.head_dropWhile_not p l hne
    have hhx : (List.dropWhile p l).head hne = x := by
      have h1 : (List.dropWhile p l).head? = some x := by rw [hx]; rfl
      have h2 := List.head?_eq_head hne
      rw [h1] at h2
      injection h2 with h3
      exact h3.symm
    rw [hhx] at hhead
    simp [List.dropWhile_cons, hhead]

lemma pyStrip_idem (s : PyStr) : pyStrip (pyStrip s) = pyStrip s := by
  rw [pyStrip_eq_rdropWhile, pyStrip_eq_rdropWhile, dropWhile_rdropWhile_dropWhile]
  exact List.rdropWhile_idempotent _ _

lemma pyStartsWith_iff (p s : PyStr) :
    pyStartsWith p s = true ↔ ∃ rest, s = p ++ rest := by
  induction p generalizing s with
  | nil => simp [pyStartsWith]
  | cons a ps ih =>
    cases s with
    | nil => simp [pyStartsWith]
    | cons c cs =>
      rw [pyStartsWith]
      simp only [Bool.and_eq_true, beq_iff_eq, ih, List.cons_append, List.cons.injEq]
      constructor
      · rintro ⟨rfl, rest, rfl⟩
        exact ⟨rest, rfl, rfl⟩
      · rintro ⟨rest, rfl, rfl⟩
        exact ⟨rfl, rest, rfl⟩

lemma splitFirst_eq_some (sep s pre post : PyStr)
    (h : splitFirst sep s = some (pre, post)) :
    s = pre ++ sep ++ post ∧
      ∀ pre2 post2, s = pre2 ++ sep ++ post2 → pre.length ≤ pre2.length := by
  induction s generalizing pre post with
  | nil =>
    rw [splitFirst] at h
    split at h
    · rename_i hsep
      rw [List.isEmpty_iff] at hsep
      rw [Option.some.injEq, Prod.mk.injEq] at h
      obtain ⟨rfl, rfl⟩ := h
      subst hsep
      exact ⟨rfl, fun pre2 post2 _ => Nat.zero_le _⟩
    · cases h
  | cons c cs ih =>
    rw [splitFirst] at h
    split at h
    · rename_i hst
      rw [Option.some.injEq, Prod.mk.injEq] at h
      obtain ⟨rfl, rfl⟩ := h
      obtain ⟨rest, hrest⟩ := (pyStartsWith_iff sep (c :: cs)).mp hst
      constructor
      · rw [hrest, List.nil_append, List.drop_left]
      · exact fun pre2 post2 _ => Nat.zero_le _
    · rename_i hst
      rcases hr : splitFirst sep cs with _ | ⟨pre', post'⟩
      · rw [hr] at h; cases h
      · rw [hr] at h
        rw [Option.some.injEq, Prod.mk.injEq] at h
        obtain ⟨rfl, rfl⟩ := h
        obtain ⟨hsound, hmin⟩ := ih pre' post' hr
        constructor
        · rw [List.cons_append, List.cons_append, hsound]
        · intro pre2 post2 heq
          cases pre2 with
          | nil =>
            exfalso
            apply hst
            rw [pyStartsWith_iff]
            exact ⟨post2, by simpa using heq⟩
          | cons c2 pre2' =>
            rw [List.cons_append, List.cons_append, List.cons.injEq] at heq
            obtain ⟨rfl, heq'⟩ := heq
            simpa [Nat.succ_le_succ_iff] using
              hmin pre2' post2 (by simpa [List.append_assoc] using heq')

lemma splitFirst_eq_none (sep s : PyStr) (h : splitFirst sep s = none) :
    ∀ pre post, s ≠ pre ++ sep ++ post := by
  induction s with
  | nil =>
    rw [splitFirst] at h
    split at h
    · cases h
    · rename_i hsep
      intro pre post heq
      have hsep' : sep ≠ [] := fun hh => hsep (by simp [hh])
      have h1 := List.append_eq_nil.mp heq.symm
      exact hsep' (List.append_eq_nil.mp h1.1).2
  | cons c cs ih =>
    rw [splitFirst] at h
    split at h
    · cases h
    · rename_i hst
      rcases hr : splitFirst sep cs with _ | pr
      · intro pre post heq
        cases pre with
        | nil =>
          apply hst
          rw [pyStartsWith_iff]
          exact ⟨post, by simpa using heq⟩
        | cons c2 pre' =>
          rw [List.cons_append, List.cons_append, List.cons.injEq] at heq
          exact ih hr pre' post heq.2
      · rw [hr] at h; cases h

lemma pyContains_iff (sep s : PyStr) :
    pyContains sep s = true ↔ ∃ pre post, s = pre ++ sep ++ post := by
  unfold pyContains
  rcases h : splitFirst sep s with _ | ⟨pre, post⟩
  · simp only [Option.isSome_none, Bool.false_eq_true, false_iff]
    rintro ⟨pre, post, heq⟩
    exact splitFirst_eq_none sep s h pre post heq
  · simp only [Option.isSome_some, true_iff]
    exact ⟨pre, post, (splitFirst_eq_some sep s pre post h).1⟩

lemma get_user_description_eq (fd : Option PyStr) :
    get_user_description fd =
      (if !(pyStartsWith prTypeMarker (pyStrip (fd.getD []))) then
        pyStrip (fd.getD [])
      else if !(pyContains userDescriptionMarker (pyStrip (fd.getD []))) then []
      else
        match splitFirst userDescriptionMarker (pyStrip (fd.getD [])) with
        | some (_, post) => pyStrip post
        | none => []) := rfl

/-! ### Claims about `get_user_description` and `get_pr_description` -/

/-- C9: when `get_pr_description_full()` yields an absent (`None`) or empty
description, `get_user_description()` returns the empty string rather than
failing — the absent value is coerced to `""` before the trimming and the
prefix check. -/
theorem user_description_of_absent_or_empty :
    get_user_description none = pyOfString "" ∧
      get_user_description (some (pyOfString "")) = pyOfString "" := by
  constructor <;> rfl

/-- C10: the string `get_user_description()` returns never carries leading or
trailing whitespace: stripping it again changes nothing, on every branch. -/
theorem user_description_stripped (full_description : Option PyStr) :
    pyStrip (get_user_description full_description) =
      get_user_description full_description := by
  rw [get_user_description_eq]
  split
  · exact pyStrip_idem _
  · split
    · rfl
    · split
      · exact pyStrip_idem _
      · rfl

/-- C2 (counterexample): the round-trip claim quantifies over raw texts `T`
not starting with `"## PR Type"`, but the code checks the prefix only after
trimming: `T = " ## PR Type"` does not start with the marker, yet
`get_user_description` returns `""`, not `trim T = "## PR Type"`. -/
theorem user_description_roundtrip_counterexample :
    pyStartsWith prTypeMarker (pyOfString " ## PR Type") = false ∧
      get_user_description (some (pyOfString " ## PR Type")) ≠
        pyStrip (pyOfString " ## PR Type") := by
  constructor
  · decide
  · decide

/-- C2 (amended): for every raw text `T` whose whitespace-trimmed form does
not start with `"## PR Type"`, `get_user_description()` returns `trim T`
exactly. -/
theorem user_description_roundtrip (T : PyStr)
    (h : pyStartsWith prTypeMarker (pyStrip T) = false) :
    get_user_description (some T) = pyStrip T := by
  unfold get_user_description
  simp [h]

theorem user_description_roundtrip_witness :
    get_user_description (some (pyOfString "  a plain user text  ")) =
      pyStrip (pyOfString "  a plain user text  ") :=
  user_description_roundtrip (pyOfString "  a plain user text  ") (by decide)

/-- C1: for a full description `D` whose whitespace-trimmed form starts with
`"## PR Type"`: if the trimmed text has no occurrence of
`"## User Description:"` the result is the empty string, and otherwise the
result is the whitespace-trimmed text following the first occurrence of
`"## User Description:"` (the occurrence decomposition with the shortest
possible preceding text). -/
theorem user_description_generated (D : PyStr)
    (h : pyStartsWith prTypeMarker (pyStrip D) = true) :
    (pyContains userDescriptionMarker (pyStrip D) = false →
      (∀ pre post, pyStrip D ≠ pre ++ userDescriptionMarker ++ post) ∧
      get_user_description (some D) = pyOfString "") ∧
    (pyContains userDescriptionMarker (pyStrip D) = true →
      ∃ pre post,
        pyStrip D = pre ++ userDescriptionMarker ++ post ∧
        (∀ pre2 post2, pyStrip D = pre2 ++ userDescriptionMarker ++ post2 →
          pre.length ≤ pre2.length) ∧
        get_user_description (some D) = pyStrip post) := by
  constructor
  · intro hc
    constructor
    · intro pre post heq
      have := (pyContains_iff userDescriptionMarker (pyStrip D)).mpr ⟨pre, post, heq⟩
      rw [hc] at this
      cases this
    · rw [get_user_description_eq]
      simp [h, hc, pyOfString]
  · intro hc
    rcases hsp : splitFirst userDescriptionMarker (pyStrip D) with _ | ⟨pre, post⟩
    · exfalso
      unfold pyContains at hc
      rw [hsp] at hc
      cases hc
    · obtain ⟨hsound, hmin⟩ :=
        splitFirst_eq_some userDescriptionMarker (pyStrip D) pre post hsp
      refine ⟨pre, post, hsound, hmin, ?_⟩
      rw [get_user_description_eq]
      simp only [Option.getD_some, h, Bool.not_true, Bool.false_eq_true, if_false, hc, hsp]

/-! ### Properties of the language detector -/

lemma pySplitChar_ne_nil (c : Char) (l : PyStr) : pySplitChar c l ≠ [] := by
  cases l with
  | nil => simp [pySplitChar]
  | cons x xs =>
    simp only [pySplitChar]
    split
    · simp
    · split <;> simp

lemma pySplitChar_of_not_mem {c : Char} {l : PyStr} (h : c ∉ l) :
    pySplitChar c l = [l] := by
  induction l with
  | nil => rfl
  | cons x xs ih =>
    rw [List.mem_cons, not_or] at h
    have hx : (x == c) = false := beq_eq_false_iff_ne.mpr fun hh => h.1 hh.symm
    simp [pySplitChar, ih h.2, hx]

lemma two_le_length_pySplitChar {c : Char} {l : PyStr} (h : c ∈ l) :
    2 ≤ (pySplitChar c l).length := by
  induction l with
  | nil => cases h
  | cons x xs ih =>
    by_cases hx : x = c
    · subst hx
      have h1 : 1 ≤ (pySplitChar x xs).length :=
        List.length_pos.mpr (pySplitChar_ne_nil x xs)
      simp only [pySplitChar, beq_self_eq_true, if_true, List.length_cons]
      omega
    · have hmem : c ∈ xs := by
        rcases List.mem_cons.mp h with h' | h'
        · exact absurd h'.symm hx
        · exact h'
      have hx' : (x == c) = false := beq_eq_false_iff_ne.mpr hx
      have h2 := ih hmem
      rcases hr : pySplitChar c xs with _ | ⟨y, ys⟩
      · exact absurd hr (pySplitChar_ne_nil c xs)
      · rw [hr] at h2
        simp only [pySplitChar, hx', Bool.false_eq_true, if_false, hr]
        simpa using h2

lemma pySplitChar_getLast_of_mem {c : Char} {l : PyStr} (h : c ∈ l) :
    ∃ pre ext, (pySplitChar c l).getLast? = some ext ∧
      l = pre ++ c :: ext ∧ c ∉ ext := by
  induction l with
  | nil => cases h
  | cons x xs ih =>
    by_cases hx : x = c
    · subst hx
      by_cases hmem : x ∈ xs
      · obtain ⟨pre, ext, hlast, heq, hnot⟩ := ih hmem
        rcases hr : pySplitChar x xs with _ | ⟨y, ys⟩
        · exact absurd hr (pySplitChar_ne_nil x xs)
        · rw [hr] at hlast
          refine ⟨x :: pre, ext, ?_, ?_, hnot⟩
          · simp only [pySplitChar, beq_self_eq_true, if_true, hr,
              List.getLast?_cons_cons]
            exact hlast
          · rw [List.cons_append, heq]
      · refine ⟨[], xs, ?_, rfl, hmem⟩
        simp only [pySplitChar, beq_self_eq_true, if_true,
          pySplitChar_of_not_mem hmem, List.getLast?_cons_cons]
        rfl
    · have hmem : c ∈ xs := by
        rcases List.mem_cons.mp h with h' | h'
        · exact absurd h'.symm hx
        · exact h'
      obtain ⟨pre, ext, hlast, heq, hnot⟩ := ih hmem
      have hx' : (x == c) = false := beq_eq_false_iff_ne.mpr hx
      have h2 := two_le_length_pySplitChar hmem
      rcases hr : pySplitChar c xs with _ | ⟨y, ys⟩
      · exact absurd hr (pySplitChar_ne_nil c xs)
      · rcases ys with _ | ⟨z, zs⟩
        · rw [hr] at h2
          simp at h2
        · rw [hr] at hlast
          rw [List.getLast?_cons_cons] at hlast
          refine ⟨x :: pre, ext, ?_, ?_, hnot⟩
          · simp only [pySplitChar, hx', Bool.false_eq_true, if_false, hr,
              List.getLast?_cons_cons]
            exact hlast
          · rw [List.cons_append, heq]

lemma fileExtension?_isSome (f : FileArg) : ∃ e, fileExtension? f = some e := by
  unfold fileExtension?
  rcases hl : pySplitChar '.' (fileArgInfo f).filename with _ | ⟨y, ys⟩
  · exact absurd hl (pySplitChar_ne_nil _ _)
  · exact ⟨(y :: ys).getLast (by simp), List.getLast?_eq_getLast_of_ne_nil _⟩

lemma extensionList?_isSome (files : List FileArg) :
    ∃ exts, extensionList? files = some exts ∧ exts.length = files.length := by
  induction files with
  | nil => exact ⟨[], rfl, rfl⟩
  | cons f fs ih =>
    obtain ⟨e, he⟩ := fileExtension?_isSome f
    obtain ⟨exts, hexts, hlen⟩ := ih
    exact ⟨e :: exts, by simp [extensionList?, he, hexts], by simp [hlen]⟩

lemma extensionList?_const {e : PyStr} {files : List FileArg}
    (h : ∀ f ∈ files, fileExtension? f = some e) :
    ∃ exts, extensionList? files = some exts ∧ exts.length = files.length ∧
      ∀ x ∈ exts, x = e := by
  induction files with
  | nil => exact ⟨[], rfl, rfl, by simp⟩
  | cons f fs ih =>
    obtain ⟨exts, h1, h2, h3⟩ := ih fun g hg => h g (List.mem_cons_of_mem f hg)
    refine ⟨e :: exts, ?_, by simp [h2], ?_⟩
    · simp [extensionList?, h f (List.mem_cons_self f fs), h1]
    · intro x hx
      rcases List.mem_cons.mp hx with rfl | hx'
      · rfl
      · exact h3 x hx'

lemma dedupStep_ne_nil (acc : List PyStr) (x : PyStr) :
    (if x ∈ acc then acc else acc ++ [x]) ≠ [] := by
  split
  · rename_i hmem
    rcases acc with _ | _
    · exact absurd hmem (List.not_mem_nil x)
    · simp
  · simp

lemma foldl_dedup_ne_nil (l : List PyStr) (acc : List PyStr) (h : acc ≠ []) :
    l.foldl (fun acc x => if x ∈ acc then acc else acc ++ [x]) acc ≠ [] := by
  induction l generalizing acc with
  | nil => exact h
  | cons x xs ih => exact ih _ (dedupStep_ne_nil acc x)

lemma dedupFirst_ne_nil {l : List PyStr} (h : l ≠ []) : dedupFirst l ≠ [] := by
  rcases l with _ | ⟨x, xs⟩
  · exact absurd rfl h
  · unfold dedupFirst
    rw [List.foldl_cons]
    exact foldl_dedup_ne_nil xs _ (by simp)

lemma foldl_dedup_subset (l acc : List PyStr) (h : ∀ x ∈ l, x ∈ acc) :
    l.foldl (fun acc x => if x ∈ acc then acc else acc ++ [x]) acc = acc := by
  induction l with
  | nil => rfl
  | cons x xs ih =>
    rw [List.foldl_cons, if_pos (h x (List.mem_cons_self x xs))]
    exact ih fun y hy => h y (List.mem_cons_of_mem x hy)

lemma dedupFirst_all_eq {e : PyStr} {l : List PyStr} (hne : l ≠ [])
    (h : ∀ x ∈ l, x = e) : dedupFirst l = [e] := by
  rcases l with _ | ⟨x, xs⟩
  · exact absurd rfl hne
  · have hx : x = e := h x (List.mem_cons_self x xs)
    subst hx
    unfold dedupFirst
    rw [List.foldl_cons]
    have hstep : (if x ∈ ([] : List PyStr) then ([] : List PyStr) else [] ++ [x]) =
        [x] := by simp
    rw [hstep]
    exact foldl_dedup_subset xs [x] fun y hy => by
      simp [h y (List.mem_cons_of_mem x hy)]

lemma firstMaxBy_isSome {α : Type} (val : α → Int) {l : List α} (h : l ≠ []) :
    ∃ a, firstMaxBy val l = some a := by
  rcases l with _ | ⟨x, xs⟩
  · exact absurd rfl h
  · exact ⟨_, rfl⟩

lemma topLanguage?_isSome {languages : List (PyStr × Int)} (h : languages ≠ []) :
    ∃ t, topLanguage? languages = some t := by
  obtain ⟨a, ha⟩ := firstMaxBy_isSome Prod.snd h
  exact ⟨pyLower a.1, by simp [topLanguage?, ha]⟩

lemma mostCommonExtension?_isSome {exts : List PyStr} (h : exts ≠ []) :
    ∃ m, mostCommonExtension? exts = some m := by
  unfold mostCommonExtension?
  exact firstMaxBy_isSome _ (dedupFirst_ne_nil h)

lemma mostCommonExtension?_all_eq {e : PyStr} {exts : List PyStr} (hne : exts ≠ [])
    (h : ∀ x ∈ exts, x = e) : mostCommonExtension? exts = some e := by
  unfold mostCommonExtension?
  rw [dedupFirst_all_eq hne h]
  rfl

lemma langMatch_iff (ext top : PyStr) :
    langMatch ext top = true ↔ ((ext, top) ∈ extensionTable ∨ ext = top) := by
  simp only [langMatch, extensionTable, Bool.or_eq_true, Bool.and_eq_true,
    beq_iff_eq, List.mem_cons, List.not_mem_nil, or_false, Prod.mk.injEq,
    or_assoc]

theorem user_description_generated_witness :
    ∃ pre post,
      pyStrip (pyOfString "## PR Type: fix\n## User Description:\n  hello  ") =
        pre ++ userDescriptionMarker ++ post ∧
      (∀ pre2 post2,
        pyStrip (pyOfString "## PR Type: fix\n## User Description:\n  hello  ") =
          pre2 ++ userDescriptionMarker ++ post2 →
        pre.length ≤ pre2.length) ∧
      get_user_description
          (some (pyOfString "## PR Type: fix\n## User Description:\n  hello  ")) =
        pyStrip post :=
  (user_description_generated
      (pyOfString "## PR Type: fix\n## User Description:\n  hello  ")
      (by decide)).2 (by decide)

/-- C6: for every file entry (bare filename string or `FilePatchInfo`), the
computed extension is the text after the last `'.'` of the filename (the
unique decomposition `filename = pre ++ '.' :: ext` with no dot in `ext`);
a filename containing no `'.'` yields the whole filename. -/
theorem file_extension_after_last_dot (f : FileArg) :
    (('.') ∈ (fileArgInfo f).filename →
      ∃ pre ext, fileExtension? f = some ext ∧
        (fileArgInfo f).filename = pre ++ '.' :: ext ∧ ('.') ∉ ext) ∧
    (('.') ∉ (fileArgInfo f).filename →
      fileExtension? f = some (fileArgInfo f).filename) := by
  constructor
  · intro h
    unfold fileExtension?
    exact pySplitChar_getLast_of_mem h
  · intro h
    unfold fileExtension?
    rw [pySplitChar_of_not_mem h]
    rfl

theorem file_extension_after_last_dot_witness :
    ∃ pre ext,
      fileExtension? (FileArg.str (pyOfString "pkg/archive.tar.gz")) = some ext ∧
      (fileArgInfo (FileArg.str (pyOfString "pkg/archive.tar.gz"))).filename =
        pre ++ '.' :: ext ∧ ('.') ∉ ext :=
  (file_extension_after_last_dot (FileArg.str (pyOfString "pkg/archive.tar.gz"))).1
    (by decide)

/-- C4: `get_main_pr_language` returns the empty string immediately when the
languages mapping is empty and when the files list is empty. -/
theorem main_language_empty_inputs (languages : List (PyStr × Int))
    (files : List FileArg) :
    get_main_pr_language [] files = pyOfString "" ∧
      get_main_pr_language languages [] = pyOfString "" := by
  constructor
  · rfl
  · rcases languages with _ | _ <;> rfl

/-- C5: `get_main_pr_language` is total: on empty inputs it returns the empty
string via the guards, and on non-empty inputs the `try` body always
produces a string (no failure reaches the `except` handler, which would
itself degrade to the empty string), so no error ever propagates. -/
theorem main_language_total (languages : List (PyStr × Int))
    (files : List FileArg) :
    (languages = [] → get_main_pr_language languages files = pyOfString "") ∧
    (files = [] → get_main_pr_language languages files = pyOfString "") ∧
    (languages ≠ [] → files ≠ [] →
      ∃ s, mainLanguageTry languages files = some s ∧
        get_main_pr_language languages files = s) := by
  refine ⟨?_, ?_, ?_⟩
  · rintro rfl
    rfl
  · rintro rfl
    rcases languages with _ | _ <;> rfl
  · intro h1 h2
    obtain ⟨top, htop⟩ := topLanguage?_isSome h1
    obtain ⟨exts, hexts, hlen⟩ := extensionList?_isSome files
    have hne : exts ≠ [] := by
      intro hh
      subst hh
      exact h2 (List.length_eq_zero.mp hlen.symm)
    obtain ⟨mce, hmce⟩ := mostCommonExtension?_isSome hne
    refine ⟨if langMatch mce top then top else [], ?_, ?_⟩
    · simp [mainLanguageTry, htop, hexts, hmce]
    · have hTry : mainLanguageTry languages files =
          some (if langMatch mce top then top else []) := by
        simp [mainLanguageTry, htop, hexts, hmce]
      simp [get_main_pr_language, List.isEmpty_iff, h1, h2, hTry]

theorem main_language_total_witness :
    ∃ s,
      mainLanguageTry [(pyOfString "Python", 1)]
          [FileArg.str (pyOfString "noext")] = some s ∧
        get_main_pr_language [(pyOfString "Python", 1)]
            [FileArg.str (pyOfString "noext")] = s :=
  (main_language_total [(pyOfString "Python", 1)]
      [FileArg.str (pyOfString "noext")]).2.2 (by decide) (by decide)

/-- C3: for non-empty languages and files, `get_main_pr_language` returns the
top language exactly when the fixed extension table maps the most common
extension to it or the most common extension equals it verbatim, and the
empty string otherwise; in particular, when every file's extension matches
the table entry for the top language the result is the top language.  The
top language and most common extension are the deterministic first-maximum
selections of the embedding. -/
theorem main_language_match_policy (languages : List (PyStr × Int))
    (files : List FileArg) (h1 : languages ≠ []) (h2 : files ≠ []) :
    (∃ top exts mce,
      topLanguage? languages = some top ∧
      extensionList? files = some exts ∧
      mostCommonExtension? exts = some mce ∧
      get_main_pr_language languages files =
        (if (mce, top) ∈ extensionTable ∨ mce = top then top
          else pyOfString "")) ∧
    (∀ top e,
      topLanguage? languages = some top →
      (e, top) ∈ extensionTable →
      (∀ f ∈ files, fileExtension? f = some e) →
      get_main_pr_language languages files = top) := by
  constructor
  · obtain ⟨top, htop⟩ := topLanguage?_isSome h1
    obtain ⟨exts, hexts, hlen⟩ := extensionList?_isSome files
    have hne : exts ≠ [] := by
      intro hh
      subst hh
      exact h2 (List.length_eq_zero.mp hlen.symm)
    obtain ⟨mce, hmce⟩ := mostCommonExtension?_isSome hne
    refine ⟨top, exts, mce, htop, hexts, hmce, ?_⟩
    have hTry : mainLanguageTry languages files =
        some (if langMatch mce top then top else []) := by
      simp [mainLanguageTry, htop, hexts, hmce]
    have hmain : get_main_pr_language languages files =
        (if langMatch mce top then top else []) := by
      simp [get_main_pr_language, List.isEmpty_iff, h1, h2, hTry]
    rw [hmain]
    by_cases hp : (mce, top) ∈ extensionTable ∨ mce = top
    · rw [if_pos ((langMatch_iff mce top).mpr hp), if_pos hp]
    · have hq : langMatch mce top = false := by
        rw [Bool.eq_false_iff]
        intro hq'
        exact hp ((langMatch_iff mce top).mp hq')
      rw [if_neg hp, hq]
      rfl
  · intro top e htop hmem hall
    obtain ⟨exts, hexts, hlen, hallx⟩ := extensionList?_const hall
    have hne : exts ≠ [] := by
      intro hh
      subst hh
      exact h2 (List.length_eq_zero.mp hlen.symm)
    have hmce := mostCommonExtension?_all_eq hne hallx
    have hq : langMatch e top = true := (langMatch_iff e top).mpr (Or.inl hmem)
    have hTry : mainLanguageTry languages files = some top := by
      simp [mainLanguageTry, htop, hexts, hmce, hq]
    simp [get_main_pr_language, List.isEmpty_iff, h1, h2, hTry]

theorem main_language_match_policy_witness :
    get_main_pr_language
        [(pyOfString "Python", 120), (pyOfString "JavaScript", 30)]
        [FileArg.str (pyOfString "a.py"), FileArg.str (pyOfString "b.py")] =
      pyOfString "python" :=
  (main_language_match_policy
      [(pyOfString "Python", 120), (pyOfString "JavaScript", 30)]
      [FileArg.str (pyOfString "a.py"), FileArg.str (pyOfString "b.py")]
      (by decide) (by decide)).2 (pyOfString "python") (pyOfString "py")
    (by decide) (by decide) (by decide)

lemma get_pr_description_eq (full : Bool) (max_tokens : Option Int)
    (clip_tokens : PyStr → Int → PyStr) (full_description : Option PyStr) :
    get_pr_description full max_tokens clip_tokens full_description =
      (if pyTruthyOptInt max_tokens then
        (if full then full_description
          else some (get_user_description full_description)).map
          (fun d => clip_tokens d (max_tokens.getD 0))
      else if full then full_description
        else some (get_user_description full_description)) := rfl

/-- C7 (counterexample): the claim says a set `CONFIG.MAX_DESCRIPTION_TOKENS`
budget makes the result pass through `clip`, but Python's `if max_tokens:`
treats a budget of `0` as falsy: with the budget set to `0` and a `clip`
that rewrites every text, the description is returned unchanged. -/
theorem pr_description_clip_counterexample :
    (some (0 : Int)).isSome = true ∧
    get_pr_description true (some 0) (fun _ _ => pyOfString "clipped")
        (some (pyOfString "hello")) = some (pyOfString "hello") ∧
    pyOfString "hello" ≠
      (fun (_ : PyStr) (_ : Int) => pyOfString "clipped")
        (pyOfString "hello") 0 := by
  refine ⟨rfl, rfl, by decide⟩

/-- C7 (amended): `get_pr_description` returns the full description when
`full` is true and `get_user_description()` when `full` is false; when the
configured budget is set to a truthy (non-zero) value the chosen result is
passed through the external `clip` collaborator, and when the budget is
unset or set to `0` it is returned unchanged. -/
theorem pr_description_clip (full : Bool) (max_tokens : Option Int)
    (clip : PyStr → Int → PyStr) (full_description : Option PyStr) :
    (∀ mt, max_tokens = some mt → mt ≠ 0 →
      get_pr_description full max_tokens clip full_description =
        (if full then full_description
          else some (get_user_description full_description)).map
          (fun d => clip d mt)) ∧
    (max_tokens = none ∨ max_tokens = some 0 →
      get_pr_description full max_tokens clip full_description =
        (if full then full_description
          else some (get_user_description full_description))) := by
  constructor
  · rintro mt rfl hmt
    rw [get_pr_description_eq]
    have ht : pyTruthyOptInt (some mt) = true := by
      simp [pyTruthyOptInt, hmt]
    simp [ht]
  · rintro (rfl | rfl)
    · rw [get_pr_description_eq]
      simp [pyTruthyOptInt]
    · rw [get_pr_description_eq]
      simp [pyTruthyOptInt]

theorem pr_description_clip_witness :
    get_pr_description false (some 5) (fun d _ => d ++ d)
        (some (pyOfString "hi")) = some (pyOfString "hihi") := by
  have h := (pr_description_clip false (some 5) (fun d _ => d ++ d)
      (some (pyOfString "hi"))).1 5 rfl (by decide)
  rw [h]
  decide

/-- C8: the derived accessor `first_new_commit_sha` is absent exactly when
`first_new_commit` is absent and otherwise equals that commit's `sha`, and
likewise for `last_seen_commit_sha`; both accessors are pure functions of
the state. -/
theorem incremental_pr_sha_accessors (st : IncrementalPR) :
    (st.first_new_commit_sha = none ↔ st.first_new_commit = none) ∧
    (∀ c, st.first_new_commit = some c →
      st.first_new_commit_sha = some c.sha) ∧
    (st.last_seen_commit_sha = none ↔ st.last_seen_commit = none) ∧
    (∀ c, st.last_seen_commit = some c →
      st.last_seen_commit_sha = some c.sha) := by
  obtain ⟨inc, cr, fnc, lsc⟩ := st
  rcases fnc with _ | c1 <;> rcases lsc with _ | c2 <;>
    simp [IncrementalPR.first_new_commit_sha, IncrementalPR.last_seen_commit_sha]

theorem incremental_pr_sha_accessors_witness :
    IncrementalPR.first_new_commit_sha
        { is_incremental := true, commits_range := none,
          first_new_commit := some { sha := pyOfString "abc123" },
          last_seen_commit := none } = some (pyOfString "abc123") :=
  (incremental_pr_sha_accessors _).2.1 { sha := pyOfString "abc123" } rfl
